import Mathlib

/-!
Verification of the px64 reactive scope-binding engine (src/px64.js) against its
natural-language specification.

The development shallowly embeds the core of the engine:

* a model of JavaScript values (enough structure for property access, truthiness,
  and the observable upgrade);
* `resolvePath`, the dotted-path resolver;
* `observable`, the in-place reactive upgrade of plain records;
* the backing-store semantics of the `$set` / `$observe` closures installed by
  `observable` (field map plus listener registry, with notification events);
* `batchUpdate` and its flush loop (the update scheduler);
* `parseBinds`, the `data-bind` attribute grammar;
* the tree walker `walk` / `applyBinds` and the `view` binder over a model DOM;
* `cleanupElement` / `unbind`, the lifecycle tracker;
* the list binder's diffing renderer (`arraysEqual` and the skip path);
* `listState` / `setItems` over an explicit array heap, so that aliasing between
  the caller's array and the stored items can be expressed.

JavaScript strings are modelled as Lean `String`, with the string operations that
px64 uses (`split`, `trim`, `join`) re-implemented over character lists so that
every definition evaluates by `rfl` / `decide`.
-/

namespace Px64

/-! ## JavaScript string primitives

`jsSplit` models `String.prototype.split` with a single-character separator:
splitting `""` yields `[""]`, adjacent separators yield empty segments, and a
trailing separator yields a trailing empty segment.  `jsTrim` models
`String.prototype.trim` (whitespace stripped from both ends). -/

def splitOnChar (sep : Char) : List Char → List (List Char)
  | [] => [[]]
  | c :: rest =>
    let r := splitOnChar sep rest
    if c = sep then [] :: r
    else
      match r with
      | [] => [[c]]
      | seg :: segs => (c :: seg) :: segs

def jsSplit (sep : Char) (s : String) : List String :=
  (splitOnChar sep s.data).map (fun cs => ⟨cs⟩)

def isJsSpace (c : Char) : Bool :=
  c = ' ' || c = '\t' || c = '\n' || c = '\r' || c = '\x0b' || c = '\x0c'

def jsTrim (s : String) : String :=
  ⟨((s.data.dropWhile isJsSpace).reverse.dropWhile isJsSpace).reverse⟩

/-! ## JavaScript values

A shallow model of the values px64 manipulates.  Objects carry the hidden
`OBS` marker as a boolean flag (`hasObs`) together with an association list of
fields; arrays and functions are opaque references, since the engine never
looks inside them on the paths verified here.  `src/px64.js:66` classifies a
value as a plain object (`isObj`) exactly when it is truthy, of type
`object`, and not an array: in this model that is the `jobj` constructor. -/

inductive JSVal where
  | jundefined
  | jnull
  | jbool (b : Bool)
  | jnum (n : Int)
  | jstr (s : String)
  | jfun (id : Nat)
  | jarr (id : Nat)
  | jobj (hasObs : Bool) (fields : List (String × JSVal))
deriving Repr

/-- JavaScript truthiness (used by the `view` binder's `if (!childScope) return`). -/
def truthy : JSVal → Bool
  | .jundefined => false
  | .jnull => false
  | .jbool b => b
  | .jnum n => n != 0
  | .jstr s => s ≠ ""
  | .jfun _ => true
  | .jarr _ => true
  | .jobj _ _ => true

def lookupField : List (String × JSVal) → String → Option JSVal
  | [], _ => none
  | (k, v) :: rest, key => if k = key then some v else lookupField rest key

/-- Property access `v[k]` on a value that is neither `null` nor `undefined`:
a missing field, or any access on a primitive, yields `undefined` (prototype
properties are not modelled). -/
def getProp (v : JSVal) (k : String) : JSVal :=
  match v with
  | .jobj _ fs => (lookupField fs k).getD .jundefined
  | _ => .jundefined

/-! ## Path resolver (`resolvePath`, src/px64.js:356-368)

The source splits the path on `'.'`, drops empty segments, and reduces over the
segments, short-circuiting to `undefined` whenever the accumulator is `null` or
`undefined`. -/

def pathKeys (path : String) : List String :=
  (jsSplit '.' path).filter (fun k => k ≠ "")

/-- One step of the `reduce` in `resolvePath`: the accumulator is checked for
`null`/`undefined` before the property access happens. -/
def resolveStep (acc : JSVal) (k : String) : JSVal :=
  match acc with
  | .jnull => .jundefined
  | .jundefined => .jundefined
  | v => getProp v k

def resolvePath (scope : JSVal) (path : String) : JSVal :=
  if path = "" then scope
  else
    let keys := pathKeys path
    if keys = [] then scope
    else keys.foldl resolveStep scope

/-- Property access with JavaScript's exception behaviour made explicit: reading
a property of `null` or `undefined` throws a `TypeError`. -/
def getPropE (v : JSVal) (k : String) : Except String JSVal :=
  match v with
  | .jundefined => .error "TypeError: cannot read properties of undefined"
  | .jnull => .error "TypeError: cannot read properties of null"
  | v => .ok (getProp v k)

/-- The same reduction step as `resolveStep`, but performing the property access
through `getPropE`, so that an unguarded access on `null`/`undefined` would
surface as an exception.  The guard in the source checks the accumulator first,
which is why the access below only happens on safe values. -/
def resolveStepE (acc : JSVal) (k : String) : Except String JSVal :=
  match acc with
  | .jnull => .ok .jundefined
  | .jundefined => .ok .jundefined
  | v => getPropE v k

def resolvePathE (scope : JSVal) (path : String) : Except String JSVal :=
  if path = "" then .ok scope
  else
    let keys := pathKeys path
    if keys = [] then .ok scope
    else keys.foldlM resolveStepE scope

theorem resolveStepE_ok (acc : JSVal) (k : String) :
    resolveStepE acc k = .ok (resolveStep acc k) := by
  cases acc <;> rfl

theorem foldlM_resolveStepE_ok (keys : List String) (scope : JSVal) :
    keys.foldlM resolveStepE scope = .ok (keys.foldl resolveStep scope) := by
  induction keys generalizing scope with
  | nil => rfl
  | cons k rest ih =>
    simp only [List.foldlM_cons, List.foldl_cons, resolveStepE_ok]
    exact ih (resolveStep scope k)

theorem resolvePathE_never_throws (scope : JSVal) (path : String) :
    resolvePathE scope path = .ok (resolvePath scope path) := by
  unfold resolvePathE resolvePath
  by_cases h0 : path = ""
  · simp [h0]
  · by_cases hk : pathKeys path = [] <;>
      simp [h0, hk, foldlM_resolveStepE_ok]

theorem foldl_resolveStep_undef (keys : List String) :
    keys.foldl resolveStep .jundefined = .jundefined := by
  induction keys with
  | nil => rfl
  | cons k rest ih => simpa [resolveStep] using ih

/-- Example record from the spec: the object literal `a: (b: (c: 5))`. -/
def exNested : JSVal :=
  .jobj false [("a", .jobj false [("b", .jobj false [("c", .jnum 5)])])]

/-- Example record from the spec: the object literal `a: ()` (empty nested record). -/
def exEmptyA : JSVal := .jobj false [("a", .jobj false [])]

/-- Claim C4: `resolvePath` resolves each dotted segment in turn, returns
`undefined` without throwing as soon as an intermediate value is `null` or
`undefined`, and ignores empty segments and trailing separators; resolving
"a.b.c" against the nested record yields 5, and "a.x.y" against a record whose
"a" field is empty yields `undefined` with no exception. -/
theorem resolvePath_spec :
    resolvePath exNested "a.b.c" = .jnum 5 ∧
    resolvePath exEmptyA "a.x.y" = .jundefined ∧
    resolvePathE exEmptyA "a.x.y" = .ok .jundefined ∧
    (∀ scope path, resolvePathE scope path = .ok (resolvePath scope path)) ∧
    (∀ keys : List String, keys.foldl resolveStep .jundefined = .jundefined) ∧
    (∀ (k : String) (keys : List String),
      (k :: keys).foldl resolveStep .jnull = .jundefined) ∧
    (∀ scope, resolvePath scope "a.b." = resolvePath scope "a.b") ∧
    (∀ scope, resolvePath scope "a..b" = resolvePath scope "a.b") := by
  refine ⟨rfl, rfl, rfl, resolvePathE_never_throws, foldl_resolveStep_undef,
    fun k keys => ?_, fun scope => rfl, fun scope => rfl⟩
  simpa [resolveStep] using foldl_resolveStep_undef keys

/-- Witness for C4: the universally quantified parts of `resolvePath_spec`
instantiated at concrete inputs. -/
theorem resolvePath_spec_witness :
    resolvePathE exNested "x.y" = .ok (resolvePath exNested "x.y") ∧
    ["p", "q"].foldl resolveStep .jundefined = .jundefined ∧
    resolvePath exNested "a.b." = resolvePath exNested "a.b" :=
  ⟨(resolvePath_spec.2.2.2.1) exNested "x.y",
   (resolvePath_spec.2.2.2.2.1) ["p", "q"],
   (resolvePath_spec.2.2.2.2.2.2.1) exNested⟩

/-! ## The observable upgrade (`observable`, src/px64.js:234-267)

`observable(obj)` returns any non-plain-object argument unchanged (`isObj`
fails on `null`, `undefined`, primitives, functions and arrays), returns an
already-upgraded object unchanged (the `obj[OBS]` idempotence check), and
otherwise marks the object with the `OBS` map and shallowly upgrades every
plain-object field that is not itself already upgraded. -/

mutual

/-- The shallow nested wrap at src/px64.js:262-264: a field is upgraded exactly
when `isObj(obj[k]) && !obj[k][OBS]`, i.e. when it is a plain object without
the `OBS` marker. -/
def wrapFields : List (String × JSVal) → List (String × JSVal)
  | [] => []
  | (k, v) :: rest => (k, wrapNested v) :: wrapFields rest

/-- The nested upgrade of a single field.  The source calls `observable` here;
its body is inlined (an un-upgraded plain object becomes a marked object with
its own fields wrapped) so that the recursion is structural —
`wrapNested_eq_observable` below records that the inlining is faithful. -/
def wrapNested : JSVal → JSVal
  | .jobj false gs => .jobj true (wrapFields gs)
  | w => w

end

def observable : JSVal → JSVal
  | .jobj false fs => .jobj true (wrapFields fs)
  | v => v

theorem wrapNested_eq_observable (gs : List (String × JSVal)) :
    wrapNested (.jobj false gs) = observable (.jobj false gs) := rfl

/-- Claim C9: `observable` is idempotent and an identity on non-upgradable
values: an already-observable object is returned unchanged, and `null`,
`undefined`, primitives, functions and arrays are returned unmodified without
the observable marker being added — in particular arrays are never upgraded. -/
theorem observable_identity_idempotent :
    (∀ fs, observable (.jobj true fs) = .jobj true fs) ∧
    observable .jundefined = .jundefined ∧
    observable .jnull = .jnull ∧
    (∀ b, observable (.jbool b) = .jbool b) ∧
    (∀ n, observable (.jnum n) = .jnum n) ∧
    (∀ s, observable (.jstr s) = .jstr s) ∧
    (∀ i, observable (.jfun i) = .jfun i) ∧
    (∀ i, observable (.jarr i) = .jarr i) ∧
    (∀ v, observable (observable v) = observable v) := by
  refine ⟨fun fs => rfl, rfl, rfl, fun b => rfl, fun n => rfl, fun s => rfl,
    fun i => rfl, fun i => rfl, fun v => ?_⟩
  cases v with
  | jobj hasObs fs => cases hasObs <;> rfl
  | _ => rfl

/-! ## The observable store (`$set` / `$observe` / `notify`, src/px64.js:240-259)

The closures installed by `observable` act on the hidden `OBS` map: a `Map`
from property name to a `Set` of listener functions, alongside the object's own
backing fields.  We model the pair directly as a `Store`.  Listener functions
and stored values are compared by identity in the source (`Set` membership and
`===`), so both are modelled as identity tokens: a listener is a `Nat`, and a
stored value is an `Option Nat` with `none` standing for `undefined` (the value
read from a missing property). -/

abbrev SVal := Option Nat

structure Store where
  fields : List (String × SVal)
  listeners : List (String × List Nat)
deriving Repr, DecidableEq

/-- Reading `obj[prop]`: a missing field reads as `undefined`. -/
def getField : List (String × SVal) → String → SVal
  | [], _ => none
  | (k, v) :: rest, key => if k = key then v else getField rest key

/-- The assignment `obj[prop] = value`. -/
def setField : List (String × SVal) → String → SVal → List (String × SVal)
  | [], key, v => [(key, v)]
  | (k, w) :: rest, key, v =>
    if k = key then (k, v) :: rest else (k, w) :: setField rest key v

/-- Reading the listener `Set` for a key: `obj[OBS].get(key)` with a missing
entry read as the empty set. -/
def lookupSet : List (String × List Nat) → String → List Nat
  | [], _ => []
  | (k, fns) :: rest, key => if k = key then fns else lookupSet rest key

def storeSet : List (String × List Nat) → String → List Nat → List (String × List Nat)
  | [], key, fns => [(key, fns)]
  | (k, old) :: rest, key, fns =>
    if k = key then (k, fns) :: rest else (k, old) :: storeSet rest key fns

/-- Models `Set.add`: identity membership, insertion order, no duplicates. -/
def addToSet (fns : List Nat) (fn : Nat) : List Nat :=
  if fn ∈ fns then fns else fns ++ [fn]

/-- Models `$observe(prop, fn)` (src/px64.js:247-252): a falsy property name registers
under the wildcard key, and `fn` is added to that key's listener set. -/
def observeOp (st : Store) (prop : String) (fn : Nat) : Store :=
  let key := if prop = "" then "*" else prop
  { st with
    listeners := storeSet st.listeners key (addToSet (lookupSet st.listeners key) fn) }

/-- The unsubscribe closure returned by `$observe`: deletes `fn` from the
key's listener set. -/
def unsubscribeOp (st : Store) (prop : String) (fn : Nat) : Store :=
  let key := if prop = "" then "*" else prop
  { st with
    listeners := storeSet st.listeners key ((lookupSet st.listeners key).filter (fun f => f ≠ fn)) }

/-- One listener invocation recorded by `notify` (src/px64.js:240-245): keyed
listeners receive `(value, old)`, wildcard listeners receive `(prop, value, old)`. -/
inductive NotifyCall where
  | keyed (fn : Nat) (value old : SVal)
  | wild (fn : Nat) (prop : String) (value old : SVal)
deriving Repr, DecidableEq

/-- The invocation sequence of `notify(prop, value, old)`: every listener in the
set for `prop`, in insertion order, then every listener in the set for `'*'`. -/
def notifyCalls (st : Store) (prop : String) (value old : SVal) : List NotifyCall :=
  (lookupSet st.listeners prop).map (fun f => .keyed f value old)
    ++ (lookupSet st.listeners "*").map (fun f => .wild f prop value old)

/-- Models `$set(prop, value)` (src/px64.js:254-259): read the old value, return
untouched when `old === value`, otherwise assign and notify. -/
def setOp (st : Store) (prop : String) (value : SVal) : Store × List NotifyCall :=
  let old := getField st.fields prop
  if old = value then (st, [])
  else
    let st1 : Store := { st with fields := setField st.fields prop value }
    (st1, notifyCalls st1 prop value old)

/-- Store well-formedness: every listener set is duplicate-free, as guaranteed
by `Set` semantics (`addToSet` never inserts a present element). -/
def WFStore (st : Store) : Prop := ∀ p ∈ st.listeners, p.2.Nodup

instance (st : Store) : Decidable (WFStore st) := by
  unfold WFStore; infer_instance

theorem lookupSet_wf {st : Store} (hwf : WFStore st) (key : String) :
    (lookupSet st.listeners key).Nodup := by
  have h : ∀ l : List (String × List Nat), (∀ p ∈ l, p.2.Nodup) →
      (lookupSet l key).Nodup := by
    intro l
    induction l with
    | nil => intro _; simp [lookupSet]
    | cons p rest ih =>
      intro hall
      obtain ⟨k, fns⟩ := p
      simp only [lookupSet]
      by_cases hk : k = key
      · simpa [hk] using hall (k, fns) (by simp)
      · simp only [if_neg hk]
        exact ih (fun q hq => hall q (List.mem_cons_of_mem _ hq))
  exact h st.listeners hwf

theorem count_map_keyed (fns : List Nat) (fn : Nat) (v old : SVal) :
    ((fns.map (fun f => NotifyCall.keyed f v old)).count (NotifyCall.keyed fn v old))
      = fns.count fn := by
  induction fns with
  | nil => rfl
  | cons f rest ih =>
    by_cases hf : f = fn <;>
      simp [List.count_cons, hf, ih]

theorem count_map_wild (fns : List Nat) (fn : Nat) (p : String) (v old : SVal) :
    ((fns.map (fun f => NotifyCall.wild f p v old)).count (NotifyCall.wild fn p v old))
      = fns.count fn := by
  induction fns with
  | nil => rfl
  | cons f rest ih =>
    by_cases hf : f = fn <;>
      simp [List.count_cons, hf, ih]

theorem count_keyed_in_wild (fns : List Nat) (fn : Nat) (p : String) (v old : SVal) :
    ((fns.map (fun f => NotifyCall.wild f p v old)).count (NotifyCall.keyed fn v old)) = 0 := by
  rw [List.count_eq_zero]
  intro hmem
  obtain ⟨f, _, hf⟩ := List.mem_map.mp hmem
  exact NotifyCall.noConfusion hf

theorem count_wild_in_keyed (fns : List Nat) (fn : Nat) (p : String) (v old : SVal) :
    ((fns.map (fun f => NotifyCall.keyed f v old)).count (NotifyCall.wild fn p v old)) = 0 := by
  rw [List.count_eq_zero]
  intro hmem
  obtain ⟨f, _, hf⟩ := List.mem_map.mp hmem
  exact NotifyCall.noConfusion hf

/-- Claim C1: for every observable scope, property `p` and value `v`: if `v` is
strictly equal to the current value of the property then `$set` invokes no
listener and leaves the backing field unchanged; otherwise `$set` updates the
backing field and invokes first every listener registered under `p` exactly
once with `(v, old)`, and then every wildcard listener exactly once with
`(p, v, old)`.  Listener sets are exactly the registrations made through
`$observe` (final conjunct). -/
theorem set_notify_spec (st : Store) (p : String) (v : SVal) (hwf : WFStore st) :
    (getField st.fields p = v → setOp st p v = (st, [])) ∧
    (getField st.fields p ≠ v →
      (setOp st p v).1.fields = setField st.fields p v ∧
      (setOp st p v).1.listeners = st.listeners ∧
      (setOp st p v).2 =
        (lookupSet st.listeners p).map (fun f => .keyed f v (getField st.fields p))
          ++ (lookupSet st.listeners "*").map (fun f => .wild f p v (getField st.fields p)) ∧
      (∀ fn ∈ lookupSet st.listeners p,
        (setOp st p v).2.count (.keyed fn v (getField st.fields p)) = 1) ∧
      (∀ fn ∈ lookupSet st.listeners "*",
        (setOp st p v).2.count (.wild fn p v (getField st.fields p)) = 1)) ∧
    (∀ q fn, q ≠ "" → fn ∈ lookupSet (observeOp st q fn).listeners q) := by
  refine ⟨fun h => by simp [setOp, h], fun h => ?_, fun q fn hq => ?_⟩
  · have hdef : setOp st p v =
        ({ st with fields := setField st.fields p v },
          notifyCalls { st with fields := setField st.fields p v } p v (getField st.fields p)) := by
      simp [setOp, h]
    refine ⟨by rw [hdef], by rw [hdef], by rw [hdef]; rfl, ?_, ?_⟩
    · intro fn hfn
      rw [hdef]
      show (notifyCalls _ p v (getField st.fields p)).count _ = 1
      unfold notifyCalls
      rw [List.count_append, count_map_keyed, count_keyed_in_wild,
        List.count_eq_one_of_mem (lookupSet_wf hwf p) hfn]
    · intro fn hfn
      rw [hdef]
      show (notifyCalls _ p v (getField st.fields p)).count _ = 1
      unfold notifyCalls
      rw [List.count_append, count_map_wild, count_wild_in_keyed,
        List.count_eq_one_of_mem (lookupSet_wf hwf "*") hfn]
  · have hkey : (if q = "" then "*" else q) = q := if_neg hq
    have hmem : ∀ l : List (String × List Nat),
        fn ∈ lookupSet (storeSet l q (addToSet (lookupSet l q) fn)) q := by
      intro l
      induction l with
      | nil => simp [storeSet, lookupSet, addToSet]
      | cons pr rest ih =>
        obtain ⟨k, fns⟩ := pr
        by_cases hk : k = q
        · subst hk
          simp only [lookupSet, storeSet, if_pos rfl, addToSet]
          by_cases hin : fn ∈ fns <;> simp [hin]
        · simpa [lookupSet, storeSet, hk] using ih
    simpa [observeOp, hkey] using hmem st.listeners

/-- Example store for the C1 witness: field `x` holding value `1`, two keyed
listeners on `x` and one wildcard listener. -/
def exStore : Store :=
  { fields := [("x", some 1)], listeners := [("x", [10, 11]), ("*", [20])] }

/-- Witness for C1: `set_notify_spec` applied to the concrete store `exStore`,
setting `x` from `1` to `2` fires the two keyed listeners and then the
wildcard listener, each exactly once; setting `x` to `1` again is a no-op. -/
theorem set_notify_spec_witness :
    setOp exStore "x" (some 1) = (exStore, []) ∧
    (setOp exStore "x" (some 2)).2 =
      [NotifyCall.keyed 10 (some 2) (some 1), NotifyCall.keyed 11 (some 2) (some 1),
        NotifyCall.wild 20 "x" (some 2) (some 1)] ∧
    (setOp exStore "x" (some 2)).2.count (NotifyCall.keyed 10 (some 2) (some 1)) = 1 := by
  have h := set_notify_spec exStore "x" (some 2) (by decide)
  have hne : getField exStore.fields "x" ≠ some 2 := by decide
  have h2 := h.2.1 hne
  refine ⟨(set_notify_spec exStore "x" (some 1) (by decide)).1 (by decide), ?_, ?_⟩
  · have := h2.2.2.1
    simpa [exStore, lookupSet] using this
  · have := h2.2.2.2.1 10 (by decide)
    simpa [exStore] using this

/-! ## Update scheduler (`batchUpdate`, src/px64.js:144-165)

The pending collection `updateQueue` is a `Set` of callback functions: identity
membership, insertion order.  Callbacks are modelled as identity tokens
(`Nat`); their behaviour when run is a separate map into `Except`, so that a
throwing callback can be expressed.  `batchUpdate` adds the callback and, when
no flush is armed, arms one (the returned flag records whether this call armed
a fresh flush).  The flush callback runs every queued callback under an
individual try/catch, then clears the queue and resets the armed flag. -/

structure Scheduler where
  updateQueue : List Nat
  isUpdateScheduled : Bool
deriving Repr, DecidableEq

def batchUpdate (s : Scheduler) (fn : Nat) : Scheduler × Bool :=
  let q := if fn ∈ s.updateQueue then s.updateQueue else s.updateQueue ++ [fn]
  if s.isUpdateScheduled then ({ updateQueue := q, isUpdateScheduled := true }, false)
  else ({ updateQueue := q, isUpdateScheduled := true }, true)

/-- A burst of `batchUpdate` calls within one pending window. -/
def scheduleAll (s : Scheduler) (cs : List Nat) : Scheduler :=
  cs.foldl (fun st c => (batchUpdate st c).1) s

/-- The `updateQueue.forEach` loop of the flush (src/px64.js:158-160): each
callback is invoked inside its own try/catch; a thrown error is logged with
`console.warn` and the loop continues with the next callback.  Returns the
invocation order and the log. -/
def runFlush (run : Nat → Except String Unit) : List Nat → List Nat × List String
  | [] => ([], [])
  | fn :: rest =>
    let tail := runFlush run rest
    match run fn with
    | .ok _ => (fn :: tail.1, tail.2)
    | .error e => (fn :: tail.1, ("px64 update error: " ++ e) :: tail.2)

/-- The whole flush callback (src/px64.js:156-163): run the queue, clear it,
reset the armed flag. -/
def flush (s : Scheduler) (run : Nat → Except String Unit) :
    (List Nat × List String) × Scheduler :=
  (runFlush run s.updateQueue, { updateQueue := [], isUpdateScheduled := false })

/-- The distinct elements of a burst, in first-occurrence (insertion) order:
exactly the contents of a `Set` built by adding every element in turn. -/
def firstOccur (cs : List Nat) : List Nat :=
  cs.foldl (fun acc c => if c ∈ acc then acc else acc ++ [c]) []

theorem batchUpdate_fst (s : Scheduler) (fn : Nat) :
    (batchUpdate s fn).1 =
      { updateQueue := if fn ∈ s.updateQueue then s.updateQueue else s.updateQueue ++ [fn],
        isUpdateScheduled := true } := by
  unfold batchUpdate
  split <;> split <;> rfl

theorem scheduleAll_queue (cs : List Nat) (q : List Nat) (b : Bool) :
    (scheduleAll { updateQueue := q, isUpdateScheduled := b } cs).updateQueue =
      cs.foldl (fun acc c => if c ∈ acc then acc else acc ++ [c]) q := by
  induction cs generalizing q b with
  | nil => rfl
  | cons c rest ih =>
    simp only [scheduleAll, List.foldl_cons, batchUpdate_fst] at *
    by_cases hc : c ∈ q <;> simp only [hc, if_pos, if_neg, if_true, if_false] <;> exact ih _ true

theorem scheduleAll_armed (cs : List Nat) (q : List Nat) (b : Bool) :
    (scheduleAll { updateQueue := q, isUpdateScheduled := b } cs).isUpdateScheduled =
      (b || !cs.isEmpty) := by
  induction cs generalizing q b with
  | nil => simp [scheduleAll]
  | cons c rest ih =>
    simp only [scheduleAll, List.foldl_cons, batchUpdate_fst] at *
    have := ih (if c ∈ q then q else q ++ [c]) true
    simp only [Bool.true_or] at this
    simp [this]

theorem dedupFold_nodup (cs : List Nat) (acc : List Nat) (hacc : acc.Nodup) :
    (cs.foldl (fun acc c => if c ∈ acc then acc else acc ++ [c]) acc).Nodup := by
  induction cs generalizing acc with
  | nil => exact hacc
  | cons c rest ih =>
    simp only [List.foldl_cons]
    by_cases hc : c ∈ acc
    · simpa [hc] using ih acc hacc
    · refine ?_
      have : (acc ++ [c]).Nodup := by
        simp [List.nodup_append, hacc, hc]
      simpa [hc] using ih (acc ++ [c]) this

theorem mem_dedupFold (cs : List Nat) (acc : List Nat) (x : Nat) :
    x ∈ cs.foldl (fun acc c => if c ∈ acc then acc else acc ++ [c]) acc ↔
      x ∈ acc ∨ x ∈ cs := by
  induction cs generalizing acc with
  | nil => simp
  | cons c rest ih =>
    simp only [List.foldl_cons]
    by_cases hc : c ∈ acc
    · rw [if_pos hc, ih]
      constructor
      · rintro (h | h)
        · exact Or.inl h
        · exact Or.inr (List.mem_cons_of_mem _ h)
      · rintro (h | h)
        · exact Or.inl h
        · rcases List.mem_cons.mp h with h | h
          · exact Or.inl (h ▸ hc)
          · exact Or.inr h
    · rw [if_neg hc, ih]
      simp only [List.mem_append, List.mem_singleton, List.mem_cons]
      tauto

theorem runFlush_executes (run : Nat → Except String Unit) (q : List Nat) :
    (runFlush run q).1 = q := by
  induction q with
  | nil => rfl
  | cons fn rest ih =>
    simp only [runFlush]
    cases run fn <;> simp [ih]

/-- Claim C3: for any burst of `batchUpdate` calls within one pending window —
in particular scheduling the same callback five times — the next flush runs
every distinct pending callback exactly once, in insertion order; afterwards
the queue is empty and the armed flag reset, so a subsequent `batchUpdate`
arms a fresh flush. -/
theorem batchUpdate_flush_spec (cs : List Nat) (run : Nat → Except String Unit) :
    ((flush (scheduleAll { updateQueue := [], isUpdateScheduled := false } cs) run).1.1 =
        firstOccur cs) ∧
    (∀ c ∈ cs,
      (flush (scheduleAll { updateQueue := [], isUpdateScheduled := false } cs) run).1.1.count c
        = 1) ∧
    ((flush (scheduleAll { updateQueue := [], isUpdateScheduled := false } cs) run).2.updateQueue
        = []) ∧
    ((flush (scheduleAll { updateQueue := [], isUpdateScheduled := false } cs)
        run).2.isUpdateScheduled = false) ∧
    (∀ fn,
      (batchUpdate
        (flush (scheduleAll { updateQueue := [], isUpdateScheduled := false } cs) run).2 fn).2
        = true) ∧
    (∀ c : Nat, firstOccur (List.replicate 5 c) = [c]) := by
  have hq : (scheduleAll { updateQueue := [], isUpdateScheduled := false } cs).updateQueue =
      firstOccur cs := scheduleAll_queue cs [] false
  refine ⟨?_, ?_, rfl, rfl, fun fn => rfl, fun c => by simp [firstOccur, List.replicate]⟩
  · simp [flush, hq, runFlush_executes]
  · intro c hc
    have hmem : c ∈ firstOccur cs := (mem_dedupFold cs [] c).mpr (Or.inr hc)
    have hnd : (firstOccur cs).Nodup := dedupFold_nodup cs [] List.nodup_nil
    simp only [flush, hq, runFlush_executes]
    exact List.count_eq_one_of_mem hnd hmem

/-- Witness for C3: a burst that schedules callback 7 five times and callback 8
once collapses to two executions, in insertion order, and the post-flush
scheduler state accepts a fresh flush. -/
theorem batchUpdate_flush_spec_witness :
    (flush (scheduleAll { updateQueue := [], isUpdateScheduled := false } [7, 7, 8, 7, 7, 7])
        (fun _ => .ok ())).1.1 = [7, 8] ∧
    (flush (scheduleAll { updateQueue := [], isUpdateScheduled := false } [7, 7, 8, 7, 7, 7])
        (fun _ => .ok ())).1.1.count 7 = 1 := by
  have h := batchUpdate_flush_spec [7, 7, 8, 7, 7, 7] (fun _ => .ok ())
  exact ⟨by rw [h.1]; decide, h.2.1 7 (by decide)⟩

/-- Claim C8: if any callback executed during a flush throws, the exception is
caught and logged for that callback alone, and every remaining callback in the
same flush still executes: the invocation order is the whole queue regardless
of errors, and the log holds exactly one entry per throwing callback. -/
theorem flush_error_containment (run : Nat → Except String Unit) (q : List Nat) :
    (runFlush run q).1 = q ∧
    (runFlush run q).2 = q.filterMap (fun c =>
      match run c with
      | .ok _ => none
      | .error e => some ("px64 update error: " ++ e)) := by
  refine ⟨runFlush_executes run q, ?_⟩
  induction q with
  | nil => rfl
  | cons fn rest ih =>
    simp only [runFlush, List.filterMap_cons]
    cases run fn <;> simp [ih]

/-- Witness for C8: with callback 1 throwing, callbacks 0, 1 and 2 all run and
the log has exactly the one entry for callback 1. -/
theorem flush_error_containment_witness :
    (runFlush (fun c => if c = 1 then .error "boom" else .ok ()) [0, 1, 2]).1 = [0, 1, 2] ∧
    (runFlush (fun c => if c = 1 then .error "boom" else .ok ()) [0, 1, 2]).2 =
      ["px64 update error: boom"] := by
  have h := flush_error_containment (fun c => if c = 1 then .error "boom" else .ok ()) [0, 1, 2]
  exact ⟨h.1, by rw [h.2]; rfl⟩

/-! ## Attribute grammar (`parseBinds`, src/px64.js:314-328)

The source splits the attribute string on commas, trims and drops empty tokens,
then splits each token on every colon with each part trimmed; one part is the
bare-identifier shorthand for the `text` command, otherwise the first part is
the command and the remaining parts are rejoined with `':'` as the argument. -/

structure Bind where
  cmd : String
  arg : String
deriving Repr, DecidableEq

/-- Models `parts.join(':')`. -/
def joinColon : List String → String
  | [] => ""
  | [p] => p
  | p :: rest => p ++ ":" ++ joinColon rest

def parseTok (tok : String) : Bind :=
  match (jsSplit ':' tok).map jsTrim with
  | [] => { cmd := "text", arg := "" }
  | [p] => { cmd := "text", arg := p }
  | cmd :: rest => { cmd := cmd, arg := joinColon rest }

def parseBinds (str : String) : List Bind :=
  ((((jsSplit ',' str).map jsTrim).filter (fun s => s ≠ ""))).map parseTok

/-- Modelled from the spec's words, for refinement comparison with `parseBinds`:
"splits ... each token on its first colon into (command, argument)", the
argument "consumed verbatim" — i.e. the command is the text before the first
colon and the argument is the text after it, with no per-part trimming. -/
def parseBindsFirstColon (str : String) : List Bind :=
  ((((jsSplit ',' str).map jsTrim).filter (fun s => s ≠ ""))).map (fun tok =>
    match jsSplit ':' tok with
    | [] => { cmd := "text", arg := "" }
    | [p] => { cmd := "text", arg := p }
    | cmd :: rest => { cmd := cmd, arg := joinColon rest })

/-- Counterexample for C5: on a token whose later colons carry adjacent
whitespace, `parseBinds` does not split on the first colon with the argument
taken verbatim — it trims every colon-separated part, so the argument loses
the interior whitespace. -/
theorem parseBinds_not_first_colon_verbatim :
    parseBinds "attr:title : user.name" =
      [{ cmd := "attr", arg := "title:user.name" }] ∧
    parseBindsFirstColon "attr:title : user.name" =
      [{ cmd := "attr", arg := "title : user.name" }] ∧
    parseBinds "attr:title : user.name" ≠ parseBindsFirstColon "attr:title : user.name" := by
  refine ⟨rfl, rfl, ?_⟩
  decide

/-- Claim C5 (amended): `parseBinds` splits the attribute on commas into
trimmed, non-empty tokens and each token on colons with every part trimmed: a
token with no colon yields the text shorthand, otherwise the command is the
first part and the argument is the remaining parts rejoined with `':'`.  On
any input in which no whitespace adjoins a colon inside a token, this agrees
with splitting each token on its first colon with the argument verbatim; the
spec's three examples hold as stated. -/
theorem parseBinds_spec :
    parseBinds "text:name" = [{ cmd := "text", arg := "name" }] ∧
    parseBinds "name" = [{ cmd := "text", arg := "name" }] ∧
    parseBinds "attr:title:user.name" = [{ cmd := "attr", arg := "title:user.name" }] ∧
    (∀ str : String,
      (∀ tok ∈ ((jsSplit ',' str).map jsTrim).filter (fun s => s ≠ ""),
        ∀ p ∈ jsSplit ':' tok, jsTrim p = p) →
      parseBinds str = parseBindsFirstColon str) := by
  refine ⟨rfl, rfl, rfl, fun str h => ?_⟩
  unfold parseBinds parseBindsFirstColon
  apply List.map_congr_left
  intro tok htok
  have hparts : (jsSplit ':' tok).map jsTrim = jsSplit ':' tok := by
    rw [List.map_congr_left (fun p hp => h tok htok p hp)]
    exact List.map_id (jsSplit ':' tok)
  unfold parseTok
  rw [hparts]

/-- Witness for C5: the agreement statement instantiated on a whitespace-free
attribute string. -/
theorem parseBinds_spec_witness :
    parseBinds "attr:title:user.name, name" =
      parseBindsFirstColon "attr:title:user.name, name" :=
  parseBinds_spec.2.2.2 "attr:title:user.name, name" (by decide)

/-! ## List binder rendering (src/px64.js:543-591)

Rows are compared by reference (`!==`), so a row is modelled as an identity
token.  `render` resolves the visible slice, compares it element-by-element to
`lastRenderedItems`, returns before any scheduling when equal, and otherwise
schedules one batched render that replaces the container's contents and stores
a shallow copy of the slice as `lastRenderedItems`. -/

abbrev RowRef := Nat

/-- Models `arraysEqual` (src/px64.js:567-573): length check, then element-by-element
strict equality. -/
def arraysEqualAux : List RowRef → List RowRef → Bool
  | [], [] => true
  | x :: xs, y :: ys => x == y && arraysEqualAux xs ys
  | _, _ => false

def arraysEqual (a b : List RowRef) : Bool :=
  if a.length ≠ b.length then false else arraysEqualAux a b

/-- DOM mutations performed by a (non-skipped) list render: the container is
cleared, then one clone is appended per visible row.  The full and the
incremental strategy perform the same mutation sequence; they differ only in
how the appends are scheduled across turns, which is not modelled here. -/
inductive DomOp where
  | clearContainer
  | appendRow (row : RowRef)
deriving Repr, DecidableEq

def renderOps (rows : List RowRef) : List DomOp :=
  DomOp.clearContainer :: rows.map DomOp.appendRow

/-- One invocation of the list binder's `render` with visible slice `rows`,
given the `lastRenderedItems` recorded by the previous render.  Returns the
DOM mutations, whether a batched update was scheduled at all, and the value of
`lastRenderedItems` after the scheduled batch (if any) has flushed — the
source stores `rows.slice()` inside the batched callback. -/
def renderList (last : List RowRef) (rows : List RowRef) :
    List DomOp × Bool × List RowRef :=
  if arraysEqual rows last then ([], false, last)
  else (renderOps rows, true, rows)

theorem arraysEqualAux_iff (a b : List RowRef) : arraysEqualAux a b = true ↔ a = b := by
  induction a generalizing b with
  | nil => cases b <;> simp [arraysEqualAux]
  | cons x xs ih =>
    cases b with
    | nil => simp [arraysEqualAux]
    | cons y ys => simp [arraysEqualAux, ih]

theorem arraysEqual_iff (a b : List RowRef) : arraysEqual a b = true ↔ a = b := by
  unfold arraysEqual
  by_cases h : a.length = b.length
  · simp [h, arraysEqualAux_iff]
  · rw [if_pos h]
    constructor
    · intro hfalse
      exact absurd hfalse (by simp)
    · intro heq
      exact absurd (congrArg List.length heq) h

/-- Claim C7: re-triggering the list render with a visible slice that is
element-by-element referentially identical to the slice rendered last time
performs zero DOM mutations on the second call, schedules nothing, and leaves
the recorded slice unchanged: the render is skipped before any scheduling or
DOM work. -/
theorem renderList_skip_identical (last rows rows2 : List RowRef)
    (h : arraysEqual rows2 rows = true) :
    renderList (renderList last rows).2.2 rows2 =
      ([], false, (renderList last rows).2.2) := by
  have heq : rows2 = rows := (arraysEqual_iff rows2 rows).mp h
  subst heq
  unfold renderList
  by_cases hskip : arraysEqual rows2 last = true
  · have : rows2 = last := (arraysEqual_iff rows2 last).mp hskip
    simp [hskip, this, (arraysEqual_iff last last).mpr rfl]
  · simp only [hskip, if_neg, Bool.not_eq_true, if_false]
    simp [(arraysEqual_iff rows2 rows2).mpr rfl, hskip]

/-- Witness for C7: rendering rows (1, 2) twice — the second call with the same
row references performs no DOM mutation. -/
theorem renderList_skip_identical_witness :
    renderList (renderList [] [1, 2]).2.2 [1, 2] = ([], false, (renderList [] [1, 2]).2.2) :=
  renderList_skip_identical [] [1, 2] [1, 2] (by decide)

/-! ## `listState` (src/px64.js:270-304)

To express the claim that `listState` stores a shallow copy — so that mutating
the caller's array afterwards does not change the stored items — arrays are
given explicit identities in a heap: a heap is a list of array contents,
indexed by array reference.  `arr.slice()` allocates a fresh reference holding
the same contents.  The observable wrapper and its change notifications are
modelled in the `Store` section above; here `setItems`' two `$set` calls are
modelled as the field updates they perform. -/

abbrev ArrVal := Nat

abbrev Heap := List (List ArrVal)

def readArr (h : Heap) (a : Nat) : List ArrVal := (h.get? a).getD []

def writeArr (h : Heap) (a : Nat) (xs : List ArrVal) : Heap := h.set a xs

/-- Models `arr.slice()`: allocate a fresh array with the same contents. -/
def sliceArr (h : Heap) (a : Nat) : Heap × Nat := (h ++ [readArr h a], h.length)

structure ListStateRec where
  items : Nat
  page : Nat
  pageSize : Nat
  sortKey : Option String
  sortDir : String
  total : Nat
  loading : Bool
deriving Repr, DecidableEq

/-- Models `listState(items)` (src/px64.js:270-279): the state's `items` field holds
`items.slice()` and `total` holds `items.length`. -/
def listState (h : Heap) (a : Nat) : Heap × ListStateRec :=
  let s := sliceArr h a
  (s.1,
    { items := s.2, page := 1, pageSize := 20, sortKey := none, sortDir := "asc",
      total := (readArr h a).length, loading := false })

/-- Models `state.setItems(arr)` (src/px64.js:281-284): `$set('items', arr.slice())`
then `$set('total', arr.length)`. -/
def setItems (h : Heap) (st : ListStateRec) (a : Nat) : Heap × ListStateRec :=
  let s := sliceArr h a
  (s.1, { st with items := s.2, total := (readArr h a).length })

theorem readArr_alloc (h : Heap) (xs : List ArrVal) :
    readArr (h ++ [xs]) h.length = xs := by
  simp [readArr, List.get?_eq_getElem?, List.getElem?_append_right (Nat.le_refl h.length)]

theorem readArr_write_ne (h : Heap) (a b : Nat) (xs : List ArrVal) (hne : b ≠ a) :
    readArr (writeArr h a xs) b = readArr h b := by
  simp [readArr, writeArr, List.get?_eq_getElem?, List.getElem?_set_ne (Ne.symm hne)]

/-- Claim C10: `listState(a)` stores a shallow copy of `a` as its items with
`total = a.length`, and `setItems(arr)` stores a shallow copy of `arr` with
`total = arr.length`; the stored reference is distinct from the caller's, so
mutating the caller's array afterwards does not change the state's items. -/
theorem listState_copies (h : Heap) (a : Nat) (st : ListStateRec) (ha : a < h.length) :
    readArr (listState h a).1 (listState h a).2.items = readArr h a ∧
    (listState h a).2.total = (readArr h a).length ∧
    (listState h a).2.items ≠ a ∧
    (∀ xs, readArr (writeArr (listState h a).1 a xs) (listState h a).2.items = readArr h a) ∧
    readArr (setItems h st a).1 (setItems h st a).2.items = readArr h a ∧
    (setItems h st a).2.total = (readArr h a).length ∧
    (setItems h st a).2.items ≠ a ∧
    (∀ xs, readArr (writeArr (setItems h st a).1 a xs) (setItems h st a).2.items = readArr h a) := by
  have hitems : (listState h a).2.items = h.length := rfl
  have hitems2 : (setItems h st a).2.items = h.length := rfl
  have hne : h.length ≠ a := Nat.ne_of_gt ha
  refine ⟨?_, rfl, ?_, ?_, ?_, rfl, ?_, ?_⟩
  · simpa [listState, sliceArr, hitems] using readArr_alloc h (readArr h a)
  · simpa [hitems] using hne
  · intro xs
    rw [show (listState h a).1 = h ++ [readArr h a] from rfl, hitems,
      readArr_write_ne _ _ _ _ hne, readArr_alloc]
  · simpa [setItems, sliceArr, hitems2] using readArr_alloc h (readArr h a)
  · simpa [hitems2] using hne
  · intro xs
    rw [show (setItems h st a).1 = h ++ [readArr h a] from rfl, hitems2,
      readArr_write_ne _ _ _ _ hne, readArr_alloc]

/-- Witness for C10: a one-array heap; after `listState`, overwriting the
caller's array leaves the stored items unchanged. -/
theorem listState_copies_witness :
    readArr (listState [[5, 6]] 0).1 (listState [[5, 6]] 0).2.items = [5, 6] ∧
    (listState [[5, 6]] 0).2.total = 2 ∧
    readArr (writeArr (listState [[5, 6]] 0).1 0 [9]) (listState [[5, 6]] 0).2.items = [5, 6] := by
  have h := listState_copies [[5, 6]] 0
    { items := 0, page := 1, pageSize := 20, sortKey := none, sortDir := "asc",
      total := 2, loading := false } (by decide)
  exact ⟨h.1, h.2.1, h.2.2.2.1 [9]⟩

/-! ## Model DOM

An element is a node identity (standing for the object identity of the DOM
node), an attribute map, and the list of child elements. -/

inductive Elem where
  | mk (eid : Nat) (attrs : List (String × String)) (children : List Elem)
deriving Repr

def Elem.eid : Elem → Nat
  | .mk i _ _ => i

def Elem.children : Elem → List Elem
  | .mk _ _ cs => cs

def lookupAttr : List (String × String) → String → Option String
  | [], _ => none
  | (k, v) :: rest, key => if k = key then some v else lookupAttr rest key

/-- Models `el.getAttribute(name)` (`none` when the attribute is absent, which is also
the `hasAttribute(name) = false` case). -/
def Elem.getAttr : Elem → String → Option String
  | .mk _ attrs _, name => lookupAttr attrs name

/-! ## Lifecycle tracker (`cleanupElement`, src/px64.js:190-203; `unbind`,
src/px64.js:1241-1259)

`elementObservers` maps an element to the set of cleanup callbacks registered
while binding it; the element key is modelled by the node identity and a
callback by its function identity.  `cleanupElement` invokes every callback of
the element under an individual try/catch (an invocation happens whether or
not the callback throws), deletes the element's entry, and recurses into the
children.  `unbind` runs `cleanupElement` on the host and then strips the
binding markers; the attribute stripping never touches the tracker. -/

abbrev ObsMap := List (Nat × List Nat)

def lookupObs : ObsMap → Nat → Option (List Nat)
  | [], _ => none
  | (k, fns) :: rest, key => if k = key then some fns else lookupObs rest key

/-- Models `elementObservers.delete(element)`. -/
def eraseObs (m : ObsMap) (i : Nat) : ObsMap := m.filter (fun p => p.1 ≠ i)

mutual

def cleanupElement (m : ObsMap) (el : Elem) : ObsMap × List Nat :=
  match el with
  | .mk i _ cs =>
    let fns := (lookupObs m i).getD []
    let m1 := eraseObs m i
    let r := cleanupChildren m1 cs
    (r.1, fns ++ r.2)

def cleanupChildren (m : ObsMap) (cs : List Elem) : ObsMap × List Nat :=
  match cs with
  | [] => (m, [])
  | c :: rest =>
    let r1 := cleanupElement m c
    let r2 := cleanupChildren r1.1 rest
    (r2.1, r1.2 ++ r2.2)

end

/-! The node identities of an element and all of its descendants, in the order
`cleanupElement` visits them. -/

mutual

def elemIds : Elem → List Nat
  | .mk i _ cs => i :: elemIdsList cs

def elemIdsList : List Elem → List Nat
  | [] => []
  | c :: rest => elemIds c ++ elemIdsList rest

end

def removeAttr (attrs : List (String × String)) (name : String) : List (String × String) :=
  attrs.filter (fun p => p.1 ≠ name)

/-! The attribute stripping of `unbind`: `data-bind` and `data-tap` are removed
from the host and from every descendant carrying `data-bind` (the
`querySelectorAll` selection); `data-scope-id` is removed from the host. -/

mutual

def stripDescendant : Elem → Elem
  | .mk i attrs cs =>
    .mk i
      (if (lookupAttr attrs "data-bind").isSome then
        removeAttr (removeAttr attrs "data-bind") "data-tap"
      else attrs)
      (stripDescendants cs)

def stripDescendants : List Elem → List Elem
  | [] => []
  | c :: rest => stripDescendant c :: stripDescendants rest

end

def stripHost : Elem → Elem
  | .mk i attrs cs =>
    .mk i (removeAttr (removeAttr (removeAttr attrs "data-scope-id") "data-bind") "data-tap")
      (stripDescendants cs)

def unbind (m : ObsMap) (root : Elem) : ObsMap × List Nat × Elem :=
  let r := cleanupElement m root
  (r.1, r.2, stripHost root)

theorem lookupObs_eraseObs_self (m : ObsMap) (i : Nat) : lookupObs (eraseObs m i) i = none := by
  induction m with
  | nil => rfl
  | cons p rest ih =>
    obtain ⟨k, fns⟩ := p
    simp only [eraseObs, List.filter_cons] at *
    by_cases hk : k = i
    · simpa [hk] using ih
    · simpa [hk, lookupObs] using ih

theorem lookupObs_eraseObs_ne (m : ObsMap) (i j : Nat) (h : j ≠ i) :
    lookupObs (eraseObs m i) j = lookupObs m j := by
  induction m with
  | nil => rfl
  | cons p rest ih =>
    obtain ⟨k, fns⟩ := p
    simp only [eraseObs, List.filter_cons] at *
    by_cases hk : k = i
    · have hij : ¬(i = j) := fun e => h e.symm
      simpa [hk, lookupObs, hij] using ih
    · by_cases hj : k = j
      · simp [hk, hj, lookupObs, h]
      · simpa [hk, hj, lookupObs] using ih

/-- The cleanup callbacks registered for one element (empty when the tracker
has no entry). -/
def regObs (m : ObsMap) (i : Nat) : List Nat := (lookupObs m i).getD []

/-- Concatenation of the registered callback sets over a list of node ids. -/
def bindObs : List Nat → (Nat → List Nat) → List Nat
  | [], _ => []
  | x :: xs, f => f x ++ bindObs xs f

theorem bindObs_congr (l : List Nat) (f g : Nat → List Nat) (h : ∀ j ∈ l, f j = g j) :
    bindObs l f = bindObs l g := by
  induction l with
  | nil => rfl
  | cons x xs ih =>
    simp only [bindObs]
    rw [h x (by simp), ih (fun j hj => h j (List.mem_cons_of_mem _ hj))]

theorem mem_bindObs {l : List Nat} {f : Nat → List Nat} {fn : Nat} :
    fn ∈ bindObs l f ↔ ∃ j ∈ l, fn ∈ f j := by
  induction l with
  | nil => simp [bindObs]
  | cons x xs ih =>
    simp only [bindObs, List.mem_append, ih, List.mem_cons]
    constructor
    · rintro (h | ⟨j, hj, hfn⟩)
      · exact ⟨x, Or.inl rfl, h⟩
      · exact ⟨j, Or.inr hj, hfn⟩
    · rintro ⟨j, hj | hj, hfn⟩
      · exact Or.inl (hj ▸ hfn)
      · exact Or.inr ⟨j, hj, hfn⟩

mutual

theorem cleanupElement_correct (m : ObsMap) (el : Elem) :
    (∀ j ∈ elemIds el, lookupObs (cleanupElement m el).1 j = none) ∧
    (∀ j, j ∉ elemIds el → lookupObs (cleanupElement m el).1 j = lookupObs m j) ∧
    ((elemIds el).Nodup →
      (cleanupElement m el).2 = bindObs (elemIds el) (regObs m)) := by
  match el with
  | .mk i attrs cs =>
    obtain ⟨iha, ihb, ihc⟩ := cleanupChildren_correct (eraseObs m i) cs
    have hmap : (cleanupElement m (.mk i attrs cs)).1 =
        (cleanupChildren (eraseObs m i) cs).1 := rfl
    have hinv : (cleanupElement m (.mk i attrs cs)).2 =
        regObs m i ++ (cleanupChildren (eraseObs m i) cs).2 := rfl
    refine ⟨?_, ?_, ?_⟩
    · intro j hj
      rw [hmap]
      rcases List.mem_cons.mp (show j ∈ i :: elemIdsList cs from hj) with hji | hjl
      · subst hji
        by_cases hin : j ∈ elemIdsList cs
        · exact iha j hin
        · rw [ihb j hin]
          exact lookupObs_eraseObs_self m j
      · exact iha j hjl
    · intro j hj
      have hji : j ≠ i := fun e => hj (by simp [elemIds, e])
      have hjl : j ∉ elemIdsList cs := fun hx => hj (by simp [elemIds, hx])
      rw [hmap, ihb j hjl]
      exact lookupObs_eraseObs_ne m i j hji
    · intro hnd
      have hcons : i ∉ elemIdsList cs ∧ (elemIdsList cs).Nodup := by
        simpa [elemIds, List.nodup_cons] using hnd
      rw [hinv, ihc hcons.2]
      have hcongr : bindObs (elemIdsList cs) (regObs (eraseObs m i)) =
          bindObs (elemIdsList cs) (regObs m) := by
        refine bindObs_congr _ _ _ (fun j hj => ?_)
        have hji : j ≠ i := fun e => hcons.1 (e ▸ hj)
        unfold regObs
        rw [lookupObs_eraseObs_ne m i j hji]
      rw [hcongr]
      rfl

theorem cleanupChildren_correct (m : ObsMap) (cs : List Elem) :
    (∀ j ∈ elemIdsList cs, lookupObs (cleanupChildren m cs).1 j = none) ∧
    (∀ j, j ∉ elemIdsList cs → lookupObs (cleanupChildren m cs).1 j = lookupObs m j) ∧
    ((elemIdsList cs).Nodup →
      (cleanupChildren m cs).2 = bindObs (elemIdsList cs) (regObs m)) := by
  match cs with
  | [] => exact ⟨fun j hj => absurd hj (by simp [elemIdsList]), fun j _ => rfl, fun _ => rfl⟩
  | c :: rest =>
    obtain ⟨iha1, ihb1, ihc1⟩ := cleanupElement_correct m c
    obtain ⟨iha2, ihb2, ihc2⟩ := cleanupChildren_correct (cleanupElement m c).1 rest
    have hmap : (cleanupChildren m (c :: rest)).1 =
        (cleanupChildren (cleanupElement m c).1 rest).1 := rfl
    have hinv : (cleanupChildren m (c :: rest)).2 =
        (cleanupElement m c).2 ++ (cleanupChildren (cleanupElement m c).1 rest).2 := rfl
    refine ⟨?_, ?_, ?_⟩
    · intro j hj
      rw [hmap]
      rcases List.mem_append.mp (show j ∈ elemIds c ++ elemIdsList rest from hj) with hjc | hjr
      · by_cases hin : j ∈ elemIdsList rest
        · exact iha2 j hin
        · rw [ihb2 j hin]
          exact iha1 j hjc
      · exact iha2 j hjr
    · intro j hj
      have hjc : j ∉ elemIds c := fun hx => hj (by simp [elemIdsList, hx])
      have hjr : j ∉ elemIdsList rest := fun hx => hj (by simp [elemIdsList, hx])
      rw [hmap, ihb2 j hjr]
      exact ihb1 j hjc
    · intro hnd
      have hsplit : (elemIds c).Nodup ∧ (elemIdsList rest).Nodup ∧
          (∀ j ∈ elemIds c, j ∉ elemIdsList rest) := by
        have h := List.nodup_append.mp (by simpa [elemIdsList] using hnd)
        exact ⟨h.1, h.2.1, fun j hj hk => h.2.2 hj hk⟩
      rw [hinv, ihc1 hsplit.1, ihc2 hsplit.2.1]
      have hcongr : bindObs (elemIdsList rest) (regObs (cleanupElement m c).1) =
          bindObs (elemIdsList rest) (regObs m) := by
        refine bindObs_congr _ _ _ (fun j hj => ?_)
        have hjc : j ∉ elemIds c := fun hx => hsplit.2.2 j hx hj
        unfold regObs
        rw [ihb1 j hjc]
      rw [hcongr]
      have : bindObs (elemIds c ++ elemIdsList rest) (regObs m) =
          bindObs (elemIds c) (regObs m) ++ bindObs (elemIdsList rest) (regObs m) := by
        induction elemIds c with
        | nil => rfl
        | cons x xs ih => simp [bindObs, ih, List.append_assoc]
      rw [show elemIdsList (c :: rest) = elemIds c ++ elemIdsList rest from rfl, this]

end

/-- Claim C6: after `unbind(root)` — and likewise after `cleanupElement` runs on
a removed subtree — every cleanup callback registered for the root and each of
its former descendants has been invoked exactly once, and the lifecycle
tracker holds no entries for the root or any former descendant.  Node
identities in a DOM tree are distinct (`hids`), and distinct registrations are
distinct callback closures (`hreg`), which is what "exactly once" counts. -/
theorem cleanup_unbind_spec (m : ObsMap) (root : Elem)
    (hids : (elemIds root).Nodup)
    (hreg : (bindObs (elemIds root) (regObs m)).Nodup) :
    (∀ j ∈ elemIds root, lookupObs (cleanupElement m root).1 j = none) ∧
    (cleanupElement m root).2 = bindObs (elemIds root) (regObs m) ∧
    (∀ fn ∈ bindObs (elemIds root) (regObs m),
      (cleanupElement m root).2.count fn = 1) ∧
    (∀ j ∈ elemIds root, lookupObs (unbind m root).1 j = none) ∧
    (unbind m root).2.1 = bindObs (elemIds root) (regObs m) := by
  obtain ⟨ha, _, hc⟩ := cleanupElement_correct m root
  have hinv := hc hids
  refine ⟨ha, hinv, ?_, ha, hinv⟩
  intro fn hfn
  rw [hinv]
  exact List.count_eq_one_of_mem hreg hfn

/-- Example tree for the C6 witness: a root with two children, one of which has
a grandchild; callbacks are registered for the root, one child and the
grandchild. -/
def exTree : Elem :=
  .mk 1 [("data-bind", "text:name")]
    [.mk 2 [] [.mk 4 [] []], .mk 3 [("data-bind", "show:flag")] []]

def exObsMap : ObsMap := [(1, [100]), (2, [101, 102]), (4, [103])]

/-- Witness for C6: cleaning the example tree invokes the callbacks of the
root, the child and the grandchild exactly once each, in visit order, and
leaves the tracker with no entry for any node of the tree. -/
theorem cleanup_unbind_spec_witness :
    (cleanupElement exObsMap exTree).2 = [100, 101, 102, 103] ∧
    lookupObs (cleanupElement exObsMap exTree).1 2 = none ∧
    (cleanupElement exObsMap exTree).2.count 102 = 1 := by
  have h := cleanup_unbind_spec exObsMap exTree (by decide) (by decide)
  exact ⟨by rw [h.2.1]; decide, h.1 2 (by decide), h.2.2.1 102 (by decide)⟩

/-! ## Tree walker and the `view` binder (src/px64.js:331-354, 505-513)

`walk` dispatches the bindings of the element itself, then iterates its
children, skipping — entirely, including binder dispatch — any child whose
raw `data-bind` attribute matches the regular expression `\bview\s*:`.  The
`view` binder resolves a nested record from the current scope, upgrades it
with `observable`, assigns the element a fresh scope-boundary identifier
registered in the scope registry, and walks each child of the element with
the new scope.

The model records the observable behaviour as a trace of events: one
`dispatch` per binder invocation (the binder registry lookup succeeding) and
one `scopeAssigned` per `assignScopeId` call, threading the scope-id counter.
The scope-stack argument of the source is write-only (no binder ever reads
it), so it is not modelled.  The DOM and observer side effects of the leaf
binders are outside this claim. -/

/-- JavaScript word characters, the `\w` class (and the complement of `\b`
boundaries next to a word character). -/
def wordChar (c : Char) : Bool := c.isAlpha || c.isDigit || c = '_'

/-- Matching the tail `\s*:` of the view regex. -/
def colonAfterSpaces : List Char → Bool
  | [] => false
  | c :: rest => if c = ':' then true else if isJsSpace c then colonAfterSpaces rest else false

/-- Whether `view\s*:` matches at the head of the character list. -/
def viewMatchAt : List Char → Bool
  | 'v' :: 'i' :: 'e' :: 'w' :: rest => colonAfterSpaces rest
  | _ => false

/-- Scanning for a match of `\bview\s*:` at any position: since `v` is a word
character, the `\b` boundary holds exactly when the previous character is
absent or not a word character. -/
def viewRegexAux (prevIsWord : Bool) : List Char → Bool
  | [] => false
  | c :: rest => (!prevIsWord && viewMatchAt (c :: rest)) || viewRegexAux (wordChar c) rest

/-- The test `/\bview\s*:/.test(binds)` at src/px64.js:347. -/
def testViewRegex (s : String) : Bool := viewRegexAux false s.data

/-- The names registered in the binder registry by the built-in binders
(src/px64.js:393-1017); `addBinder` entries in registration order. -/
def builtinBinders : List String :=
  ["text", "ternary", "html", "html-safe", "value", "show", "hide", "attr", "class", "tap",
   "view", "list", "table", "money", "image", "style", "fade", "fadein", "loading",
   "disable", "enable", "valid", "invalid", "date", "datetime", "timeago", "alert",
   "badge", "progress", "checkbox", "radio", "tab"]

/-- Observable events of one walk: a binder dispatch for an element, or a
scope-boundary identifier assignment (`assignScopeId`, src/px64.js:382-387). -/
inductive BindEvent where
  | dispatch (eid : Nat) (cmd : String) (arg : String)
  | scopeAssigned (eid : Nat) (sid : Nat)
deriving Repr, DecidableEq

mutual

/-- Models `walk(el, scope, stack)` (src/px64.js:336-354): apply this element's binds,
then walk the children — except that a child whose `data-bind` matches
`\bview\s*:` is skipped without dispatching anything for it. -/
def walk (el : Elem) (scope : JSVal) (ctr : Nat) : List BindEvent × Nat :=
  match el with
  | .mk i attrs cs =>
    let hd :=
      match lookupAttr attrs "data-bind" with
      | some _ => applyBinds (.mk i attrs cs) scope ctr
      | none => ([], ctr)
    let tl := walkChildren cs scope hd.2
    (hd.1 ++ tl.1, tl.2)
termination_by (sizeOf el, 3, 0)

/-- The child loop of `walk`, with the view skip (src/px64.js:343-353). -/
def walkChildren (cs : List Elem) (scope : JSVal) (ctr : Nat) : List BindEvent × Nat :=
  match cs with
  | [] => ([], ctr)
  | ch :: rest =>
    let skip :=
      match ch.getAttr "data-bind" with
      | some binds => binds ≠ "" && testViewRegex binds
      | none => false
    let hd := if skip then ([], ctr) else walk ch scope ctr
    let tl := walkChildren rest scope hd.2
    (hd.1 ++ tl.1, tl.2)
termination_by (sizeOf cs, 5, 0)

/-- Models `applyBinds` (src/px64.js:370-377): parse the attribute, look each command
up in the registry, and invoke the handler when present. -/
def applyBinds (el : Elem) (scope : JSVal) (ctr : Nat) : List BindEvent × Nat :=
  bindsLoop el (parseBinds ((el.getAttr "data-bind").getD "")) scope ctr
termination_by (sizeOf el, 2, 0)

def bindsLoop (el : Elem) (bs : List Bind) (scope : JSVal) (ctr : Nat) :
    List BindEvent × Nat :=
  match bs with
  | [] => ([], ctr)
  | b :: rest =>
    if b.cmd ∈ builtinBinders then
      let hd := if b.cmd = "view" then viewBinder el scope b.arg ctr else ([], ctr)
      let tl := bindsLoop el rest scope hd.2
      (BindEvent.dispatch el.eid b.cmd b.arg :: (hd.1 ++ tl.1), tl.2)
    else
      bindsLoop el rest scope ctr
termination_by (sizeOf el, 1, sizeOf bs)

/-- The `view` binder (src/px64.js:505-513): resolve the nested record, bail
out when falsy, upgrade it with `observable`, assign a fresh scope id, and
walk each child of the host with the new scope (each child through `walk`
directly — the view binder's own loop has no view skip). -/
def viewBinder (el : Elem) (scope : JSVal) (arg : String) (ctr : Nat) :
    List BindEvent × Nat :=
  match el with
  | .mk i attrs cs =>
    let childScope := resolvePath scope arg
    if truthy childScope then
      let obs := observable childScope
      let sid := ctr + 1
      let r := walkEach cs obs sid
      (BindEvent.scopeAssigned i sid :: r.1, r.2)
    else ([], ctr)
termination_by (sizeOf el, 0, 0)

def walkEach (cs : List Elem) (scope : JSVal) (ctr : Nat) : List BindEvent × Nat :=
  match cs with
  | [] => ([], ctr)
  | ch :: rest =>
    let hd := walk ch scope ctr
    let tl := walkEach rest scope hd.2
    (hd.1 ++ tl.1, tl.2)
termination_by (sizeOf cs, 5, 0)

end

/-- Models `bindTree(root, scope)` (src/px64.js:331-334): the stack it seeds is
write-only, so the walk itself carries the whole behaviour. -/
def bindTree (root : Elem) (scope : JSVal) (ctr : Nat) : List BindEvent × Nat :=
  walk root scope ctr

/-! The failing input for claim C2: the README's own nested-scope example — a
bound root containing a section with `data-bind="view:details"` whose child
binds `text:name`, against a scope holding a `details` record. -/

def exViewScope : JSVal :=
  .jobj false [("details", .jobj false [("name", .jstr "Martin")])]

def exSpan : Elem := .mk 3 [("data-bind", "text:name")] []

def exSection : Elem := .mk 2 [("data-bind", "view:details")] [exSpan]

def exViewRoot : Elem := .mk 1 [] [exSection]

/-- Claim C2 fails on the code: the section's tokens do include the `view`
command and its nested record resolves to a truthy value, yet walking the
root produces no event at all — the parent walker's skip happens before
binder dispatch, so the `view` handler is never invoked for the child, no
scope identifier is assigned, and the section's subtree is never walked.  The
final conjunct evaluates the only path on which the `view` binder does run —
the view element being itself the walk root — where the handler behaves as
the claim describes (dispatch, scope id, children walked under the new scope)
but the walker then re-walks the same children against the outer scope, the
double-walk the skip was meant to prevent. -/
theorem view_child_skipped_entirely :
    parseBinds "view:details" = [{ cmd := "view", arg := "details" }] ∧
    truthy (resolvePath exViewScope "details") = true ∧
    testViewRegex "view:details" = true ∧
    bindTree exViewRoot exViewScope 0 = ([], 0) ∧
    (bindTree exSection exViewScope 0).1 =
      [BindEvent.dispatch 2 "view" "details", BindEvent.scopeAssigned 2 1,
        BindEvent.dispatch 3 "text" "name", BindEvent.dispatch 3 "text" "name"] := by
  refine ⟨rfl, rfl, rfl, ?_, ?_⟩
  · simp +decide [bindTree, walk, walkChildren, applyBinds, bindsLoop, viewBinder, walkEach,
      exViewRoot, exSection, exSpan, Elem.getAttr]
  · have hA : lookupAttr [("data-bind", "view:details")] "data-bind" = some "view:details" :=
      rfl
    have hB : lookupAttr [("data-bind", "text:name")] "data-bind" = some "text:name" := rfl
    have hP1 : parseBinds "view:details" = [{ cmd := "view", arg := "details" }] := rfl
    have hP2 : parseBinds "text:name" = [{ cmd := "text", arg := "name" }] := rfl
    have hR : resolvePath
        (JSVal.jobj false [("details", JSVal.jobj false [("name", JSVal.jstr "Martin")])])
        "details" = JSVal.jobj false [("name", JSVal.jstr "Martin")] := rfl
    simp +decide [bindTree, walk, walkChildren, applyBinds, bindsLoop, viewBinder, walkEach,
      exViewRoot, exSection, exSpan, exViewScope, Elem.getAttr, Elem.eid,
      hA, hB, hP1, hP2, hR, truthy, observable, wrapFields, wrapNested]

end Px64
